import Mathlib

/-!
A shallow embedding of the bidirectional algebraic dependency graph of
`src/computational_graph/graph_v2.py`, together with the example relations of
`src/computational_graph/functions.py`, and theorems settling the frozen
claims about it.

Modelling conventions:
* Python runtime values flowing through the graph are `None` or numbers; we
  model them as `Val := Option ℚ` (rationals cover the ints and the exact
  results of Python's true division `/` appearing in the relations; Python
  would raise `ZeroDivisionError` on a zero divisor, which no relation in any
  scenario here reaches).
* The mutable `variable.value` fields of the variables table are modelled as
  one total function `Values : VarName → Val`; a name absent from the table
  reads as `none` (Python would raise `KeyError` on such a read, which is
  reachable only by passing an unregistered name inside the `constants`
  argument; no claim exercises that).
* Python exceptions are modelled as explicit error results that carry the
  values as mutated so far (the source documents that a mid-traversal error
  leaves earlier mutations in place).
* The traversal loop is modelled with explicit fuel; `GraphErr.outOfFuel`
  marks fuel exhaustion, and a theorem below shows an explicit fuel bound
  past which it never occurs.
* `traverseAux` additionally records the order in which nodes are popped
  (`popped`); this instrumentation observes the loop, it does not affect the
  computed values, constants, or errors.
-/

namespace CompGraph

/-- A Python value held by a variable: `None` or a number. -/
abbrev Val := Option ℚ

abbrev VarName := String

/-- The `value` fields of the variables table, as one total map. -/
abbrev Values := VarName → Val

/-- `VariableFn` (graph_v2.py lines 10-18): a callable together with `deps`,
the list of its parameter names read off its signature, and its
`__name__` (used in inconsistency error messages, line 98). -/
structure VariableFn where
  fname : String
  fn : List Val → Val
  deps : List VarName

/-- `Variable` (graph_v2.py lines 21-38). -/
structure Variable where
  name : VarName
  value : Val := none
  functions : List VariableFn := []
  verificationFn : Option (Val → Val → Bool) := none

/-- `Variable.all_dependencies` (lines 32-38). The source materialises
`list(set(...))`; only membership in the result and its emptiness are ever
consumed (lines 62, 67 iterate it to append one adjacency edge per distinct
dependency, which the filter in `adjacencyTable` below reproduces), so the
plain concatenation is a faithful model. -/
def Variable.allDependencies (v : Variable) : List VarName :=
  (v.functions.map (fun f => f.deps)).flatten

/-- `ComputationalGraph` (line 41): the registered variables in order
(`self.variables`; Lean reserves that identifier, hence `varList`). The
derived tables below are recomputed from this list; the source builds them
once at construction and never changes the topology afterwards. -/
structure ComputationalGraph where
  varList : List Variable

/-- `__variables_table__[n]` (line 60): name-keyed lookup. Names are unique
whenever construction succeeded, so first-match lookup agrees with the
Python dict. -/
def ComputationalGraph.variablesTable (g : ComputationalGraph) (n : VarName) :
    Option Variable :=
  g.varList.find? (fun v => v.name == n)

/-- `__adjacency_table__[d]` (lines 66-69): the variables that list `d` among
their dependencies, in registration order (each such variable appends its
name once to `adjacency[d]`). A key never appended to reads as `[]`
(`defaultdict(list)`). -/
def ComputationalGraph.adjacencyTable (g : ComputationalGraph) (d : VarName) :
    List VarName :=
  (g.varList.filter (fun v => decide (d ∈ v.allDependencies))).map
    (fun v => v.name)

/-- `__default_constants__` (lines 62-65): variables with no dependencies. -/
def ComputationalGraph.defaultConstants (g : ComputationalGraph) : List VarName :=
  (g.varList.filter (fun v => v.allDependencies.isEmpty)).map (fun v => v.name)

/-- `__default_verification_fn` (lines 89-90): Python `==` on the values. -/
def defaultVerificationFn (a b : Val) : Bool := a == b

/-- The verification predicate used for a variable (lines 156-160): its own
`verification_fn` when present, else the default equality. -/
def ComputationalGraph.verificationOf (g : ComputationalGraph) (n : VarName) :
    Val → Val → Bool :=
  match g.variablesTable n with
  | some v => v.verificationFn.getD defaultVerificationFn
  | none => defaultVerificationFn

/-- The `functions` list of a registered variable (line 138). -/
def ComputationalGraph.functionsOf (g : ComputationalGraph) (n : VarName) :
    List VariableFn :=
  match g.variablesTable n with
  | some v => v.functions
  | none => []

/-- The initial values of the table, as registered (line 60 stores each
`Variable` with its `value` field). -/
def ComputationalGraph.initialValues (g : ComputationalGraph) : Values :=
  fun n =>
    match g.variablesTable n with
    | some v => v.value
    | none => none

/-- Assignment `variable.value = x` on the table. -/
def setValue (vals : Values) (n : VarName) (x : Val) : Values :=
  fun m => if m = n then x else vals m

/-- The errors the source can raise: `PydanticCustomError` for duplicate
registration (lines 55-59) and unknown update names (lines 111-115),
`IndexError` from `self.variables[0]` on an empty list (line 71),
`ValueError` for value inconsistency (lines 92-101), plus the fuel marker of
the model. -/
inductive GraphErr where
  | duplicateVariable (name : VarName)
  | emptyVariables
  | unknownVariable (name : VarName)
  | inconsistency (name : VarName) (candidates : List (String × Val))
  | outOfFuel
deriving DecidableEq

/-- Result of a propagation run: the values table after the run, the raised
error if any, and the order in which nodes were popped off the pending list
(observation only). -/
structure TraverseRun where
  values : Values
  err : Option GraphErr
  popped : List VarName

/-- `possible_variable_values` (lines 140-150): for each function of `curr`
whose dependencies are all in `constants`, the pair of the function's name
and its result on the current dependency values, in declaration order. A
result of `None` is appended like any other value (the source has no filter
on the computed result). -/
def possibleVariableValues (g : ComputationalGraph) (vals : Values)
    (constants : List VarName) (curr : VarName) : List (String × Val) :=
  ((g.functionsOf curr).filter
      (fun f => f.deps.all (fun d => decide (d ∈ constants)))).map
    (fun f => (f.fname, f.fn (f.deps.map vals)))

/-- The verification loop (lines 161-165): compare consecutive candidates
with the predicate; `false` as soon as one adjacent pair disagrees. -/
def adjacentPairsAgree (p : Val → Val → Bool) : List Val → Bool
  | a :: b :: rest => p a b && adjacentPairsAgree p (b :: rest)
  | _ => true

/-- The body of the traversal loop for one popped node (lines 136-173):
skip nodes already in `constants`; otherwise collect candidate values, on a
single candidate assign it, on several run the verification loop (raising an
inconsistency error listing every candidate with its function name on a
disagreement — note the source assigns nothing in this branch), and finally
add the node to `constants`. Returns the new values, the new constants and
the raised error if any. -/
def computeNode (g : ComputationalGraph) (vals : Values)
    (constants : List VarName) (curr : VarName) :
    Values × List VarName × Option GraphErr :=
  if curr ∈ constants then (vals, constants, none)
  else
    match possibleVariableValues g vals constants curr with
    | [] => (vals, curr :: constants, none)
    | [cand] => (setValue vals curr cand.2, curr :: constants, none)
    | c1 :: c2 :: rest =>
      if adjacentPairsAgree (g.verificationOf curr)
          ((c1 :: c2 :: rest).map Prod.snd) then
        (vals, curr :: constants, none)
      else
        (vals, constants, some (.inconsistency curr (c1 :: c2 :: rest)))

/-- The loop of `traverse_graph` (lines 131-179). `node_queue.pop()` removes
the LAST element of the pending list; discovered dependents not yet visited
are inserted one by one at index 0 (line 179), so they end up reversed in
front of the remaining list; the popped node is added to `visited_nodes`
before the dependents are examined (line 133). -/
def traverseAux (g : ComputationalGraph) :
    Nat → Values → List VarName → List VarName → List VarName → TraverseRun
  | 0, vals, _, _, _ => ⟨vals, some .outOfFuel, []⟩
  | fuel + 1, vals, constants, visited, queue =>
    match queue.getLast? with
    | none => ⟨vals, none, []⟩
    | some curr =>
      let rest := queue.dropLast
      let visited1 := curr :: visited
      match computeNode g vals constants curr with
      | (vals1, constants1, none) =>
        let pushes := (g.adjacencyTable curr).filter
          (fun w => decide (w ∉ visited1))
        let out := traverseAux g fuel vals1 constants1 visited1
          (pushes.reverse ++ rest)
        ⟨out.values, out.err, curr :: out.popped⟩
      | (vals1, _, some e) => ⟨vals1, some e, [curr]⟩

/-- `traverse_graph(start, constants)` (lines 122-179). The initial visited
set is `set(start)` (line 128), i.e. the set of the single-character strings
of `start` — the source's character-decomposition behaviour, which for the
one-character names used throughout coincides with `{start}`. -/
def traverseGraph (g : ComputationalGraph) (fuel : Nat) (vals : Values)
    (start : VarName) (constants : List VarName) : TraverseRun :=
  traverseAux g fuel vals constants (start.data.map (fun c => String.mk [c]))
    [start]

/-- `update_variable(name, value, constants, propagate)` (lines 105-120):
reject unregistered names before any mutation; otherwise assign the raw
value, and when `propagate` is set, traverse from `name` with the run's
constant set `constants ∪ default_constants ∪ {name}` (a set — only
membership is consumed, so list concatenation is faithful). -/
def updateVariable (g : ComputationalGraph) (fuel : Nat) (vals : Values)
    (name : VarName) (value : Val) (constants : List VarName)
    (propagate : Bool) : TraverseRun :=
  if (g.variablesTable name).isSome then
    let vals1 := setValue vals name value
    if propagate then
      traverseGraph g fuel vals1 name
        (constants ++ g.defaultConstants ++ [name])
    else ⟨vals1, none, []⟩
  else ⟨vals, some (.unknownVariable name), []⟩

/-- The registration loop's duplicate detection (lines 54-59): the first
name equal to an earlier one. -/
def firstDuplicateAux (seen : List VarName) : List VarName → Option VarName
  | [] => none
  | a :: l => if a ∈ seen then some a else firstDuplicateAux (a :: seen) l

/-- `__setup_computational_graph` (lines 48-72): register all variables
(rejecting duplicates), then seed an initial propagation at the FIRST listed
variable with a copy of the default constants. On an empty list the source
raises `IndexError` at `self.variables[0]`. Any error of the seeding
traversal propagates out of construction. -/
def setupComputationalGraph (fuel : Nat) (vars : List Variable) :
    Except GraphErr (ComputationalGraph × Values) :=
  match firstDuplicateAux [] (vars.map (fun v => v.name)) with
  | some d => .error (.duplicateVariable d)
  | none =>
    match vars with
    | [] => .error .emptyVariables
    | v0 :: _ =>
      let g : ComputationalGraph := ⟨vars⟩
      let run := traverseGraph g fuel g.initialValues v0.name g.defaultConstants
      match run.err with
      | some e => .error e
      | none => .ok (g, run.values)

/-! ## The example relations (`src/computational_graph/functions.py`)

Each returns `None` unless every argument is numeric. A call with the wrong
number of arguments would be a Python `TypeError`; dependency lists are
constructed from the same signatures, so that is unreachable. -/

/-- `c_from_ab(a, b) = a + b` (functions.py lines 5-8). -/
def c_from_ab : List Val → Val
  | [some a, some b] => some (a + b)
  | _ => none

/-- `c_from_de(d, e) = e / d` (functions.py lines 11-14). -/
def c_from_de : List Val → Val
  | [some d, some e] => some (e / d)
  | _ => none

/-- `b_from_ca(c, a) = c - a` (functions.py lines 23-26). -/
def b_from_ca : List Val → Val
  | [some c, some a] => some (c - a)
  | _ => none

/-- `e_from_cd(c, d) = c * d` (functions.py lines 29-32). -/
def e_from_cd : List Val → Val
  | [some c, some d] => some (c * d)
  | _ => none

/-- A one-input relation in the style of functions.py: returns its input when
numeric, else `None`; used to build the traversal-order example graphs. -/
def copyOf : List Val → Val
  | [some v] => some v
  | _ => none

def fnC_from_ab : VariableFn := ⟨"c_from_ab", c_from_ab, ["a", "b"]⟩
def fnC_from_de : VariableFn := ⟨"c_from_de", c_from_de, ["d", "e"]⟩
def fnB_from_ca : VariableFn := ⟨"b_from_ca", b_from_ca, ["c", "a"]⟩
def fnE_from_cd : VariableFn := ⟨"e_from_cd", e_from_cd, ["c", "d"]⟩

/-! ## Concrete graphs for the scenario claims -/

/-- Five variables `a, b, c, d, e` with relations `c = a + b`, `e = c * d`
and `b = c - a` — the graph of the two-call update scenario. -/
def varsC5 : List Variable :=
  [⟨"a", none, [], none⟩,
   ⟨"b", none, [fnB_from_ca], none⟩,
   ⟨"c", none, [fnC_from_ab], none⟩,
   ⟨"d", none, [], none⟩,
   ⟨"e", none, [fnE_from_cd], none⟩]

def gC5 : ComputationalGraph := ⟨varsC5⟩

/-- Values after the construction-time seeding traversal of `gC5`. -/
def c5vals0 : Values :=
  (traverseGraph gC5 32 gC5.initialValues "a" gC5.defaultConstants).values

def c5run1 : TraverseRun := updateVariable gC5 32 c5vals0 "a" (some 2) [] true

def c5run2 : TraverseRun :=
  updateVariable gC5 32 c5run1.values "b" (some 3) ["a"] true

/-- The claim's literal third call: `update_variable('d', 2)`. -/
def c5run3 : TraverseRun :=
  updateVariable gC5 32 c5run2.values "d" (some 2) [] true

/-- The third call with `c` additionally pinned: `update_variable('d', 2, ['c'])`. -/
def c5run3c : TraverseRun :=
  updateVariable gC5 32 c5run2.values "d" (some 2) ["c"] true

/-- A variable `c` computed two ways, `c = a + b` and `c = e / d`, over
default constants `a, b, d, e`. -/
def varsC2 : List Variable :=
  [⟨"a", none, [], none⟩,
   ⟨"b", none, [], none⟩,
   ⟨"c", none, [fnC_from_ab, fnC_from_de], none⟩,
   ⟨"d", none, [], none⟩,
   ⟨"e", none, [], none⟩]

def gC2 : ComputationalGraph := ⟨varsC2⟩

/-- Values after construction of `gC2`, then raw (propagate-free) writes
`a := 2`, `b := 4`, `e := 8`. -/
def c2vals3 : Values :=
  (updateVariable gC2 32
    (updateVariable gC2 32
      (updateVariable gC2 32
        (traverseGraph gC2 32 gC2.initialValues "a" gC2.defaultConstants).values
        "a" (some 2) [] false).values
      "b" (some 4) [] false).values
    "e" (some 8) [] false).values

/-- The propagating call `update_variable('d', 2)` on the claim's inputs
`a = 2, b = 4, e = 8, d = 2`. -/
def c2run : TraverseRun := updateVariable gC2 32 c2vals3 "d" (some 2) [] true

/-- The same run but with `e = 12`, so that both relations yield `6`. -/
def c2runAgree : TraverseRun :=
  updateVariable gC2 32 (setValue c2vals3 "e" (some 12)) "d" (some 2) [] true

/-- Graph for the inapplicable-result claim: `a` and `b` are bare constants
and `c = a + b` is `c`'s only relation. -/
def varsC1 : List Variable :=
  [⟨"a", none, [], none⟩,
   ⟨"b", none, [], none⟩,
   ⟨"c", none, [fnC_from_ab], none⟩]

def gC1 : ComputationalGraph := ⟨varsC1⟩

/-- Construction of `gC1`, then `update_variable('c', 99)`: a direct write
giving `c` a settled previous value. -/
def c1vals1 : Values :=
  (updateVariable gC1 32
    (traverseGraph gC1 32 gC1.initialValues "a" gC1.defaultConstants).values
    "c" (some 99) [] true).values

/-- Then `update_variable('a', 2)`: the only qualifying relation of `c` is
`c_from_ab(2, None)`, which is inapplicable (returns `None`). -/
def c1run : TraverseRun := updateVariable gC1 32 c1vals1 "a" (some 2) [] true

def fnX_from_s : VariableFn := ⟨"x_from_s", copyOf, ["s"]⟩
def fnY_from_s : VariableFn := ⟨"y_from_s", copyOf, ["s"]⟩
def fnZ_from_x : VariableFn := ⟨"z_from_x", copyOf, ["x"]⟩
def fnT_from_x : VariableFn := ⟨"t_from_x", copyOf, ["x"]⟩
def fnT_from_y : VariableFn := ⟨"t_from_y", copyOf, ["y"]⟩

/-- Traversal-order graph: `s` feeds `x` and `y`; `x` feeds `z`. -/
def varsC6 : List Variable :=
  [⟨"s", none, [], none⟩,
   ⟨"x", none, [fnX_from_s], none⟩,
   ⟨"y", none, [fnY_from_s], none⟩,
   ⟨"z", none, [fnZ_from_x], none⟩]

def gC6 : ComputationalGraph := ⟨varsC6⟩

/-- `update_variable('s', 1)` on the order graph. -/
def c6run : TraverseRun :=
  updateVariable gC6 32 gC6.initialValues "s" (some 1) [] true

/-- Diamond graph: `s` feeds `x` and `y`, which both feed `t`
(4 variables, 4 edges). -/
def varsC7 : List Variable :=
  [⟨"s", none, [], none⟩,
   ⟨"x", none, [fnX_from_s], none⟩,
   ⟨"y", none, [fnY_from_s], none⟩,
   ⟨"t", none, [fnT_from_x, fnT_from_y], none⟩]

def gC7 : ComputationalGraph := ⟨varsC7⟩

/-- `update_variable('s', 1)` on the diamond graph. -/
def c7run : TraverseRun :=
  updateVariable gC7 32 gC7.initialValues "s" (some 1) [] true

/-- Graph whose variable `b` declares the input `x` that is registered
nowhere: `b = x` via a copy relation. -/
def varsC4 : List Variable :=
  [⟨"a", none, [], none⟩,
   ⟨"b", none, [⟨"b_from_x", copyOf, ["x"]⟩], none⟩]

def gC4 : ComputationalGraph := ⟨varsC4⟩

/-- The seeding traversal of `gC4` (what construction runs after
registration). -/
def c4run : TraverseRun :=
  traverseGraph gC4 8 gC4.initialValues "a" gC4.defaultConstants

/-- A single registered variable, for exhibiting a successful construction. -/
def varsTiny : List Variable := [⟨"a", none, [], none⟩]

/-- Values table with `a = 2, b = 4, d = 2, e = 8` — the settled inputs of
the two-way-computation scenario, as seen when the traversal pops `c`. -/
def c3vals : Values :=
  setValue (setValue (setValue (setValue (fun _ => none)
    "a" (some 2)) "b" (some 4)) "d" (some 2)) "e" (some 8)

/-- The run-scoped constant set in force when `c` is popped in that
scenario. -/
def c3cs : List VarName := ["a", "b", "d", "e"]

/-! ## Termination bound for the traversal loop

Nodes are pushed onto the pending list only while unvisited, but they can be
pushed several times before their first pop, so the loop is not bounded by
`|variables|`. It does terminate: the potential below strictly decreases at
every iteration, giving an explicit sufficient fuel. -/

/-- How many names of `univ` are not yet visited. -/
def unvisitedCount (univ visited : List VarName) : Nat :=
  (univ.filter (fun u => decide (u ∉ visited))).length

/-- Potential of one pending-list entry: visited entries sit one power of
`B` above unvisited ones at the same unvisited count, which pays for the
pushes a re-popped visited node can still perform. -/
def nodePot (univ visited : List VarName) (B : Nat) (w : VarName) : Nat :=
  B ^ (2 * unvisitedCount univ visited + if w ∈ visited then 1 else 0)

/-- Potential of the whole pending list. -/
def queuePot (univ visited : List VarName) (B : Nat) (queue : List VarName) :
    Nat :=
  (queue.map (nodePot univ visited B)).sum

/-- Base of the potential: strictly larger than the number of pushes any
single iteration can perform (at most one per registered variable). -/
def fuelBase (g : ComputationalGraph) : Nat := g.varList.length + 2

/-- Every name a traversal from `start` can ever hold in its pending list:
`start` itself and the registered names (adjacency lists only ever contain
registered names). -/
def nameUniverse (g : ComputationalGraph) (start : VarName) : List VarName :=
  (start :: g.varList.map (fun v => v.name)).dedup

/-- An explicit fuel amount past which `traverseGraph g · vals start cs`
can never exhaust its fuel: the initial potential. -/
def traverseFuelBound (g : ComputationalGraph) (start : VarName) : Nat :=
  queuePot (nameUniverse g start) (start.data.map (fun c => String.mk [c]))
    (fuelBase g) [start]

end CompGraph

namespace CompGraph

/-! ## Theorems for the claims -/

/-- C1 counterexample. The claim says an inapplicable (`None`) result of the
only qualifying relation is discarded and the variable keeps its previous
value. In `gC1`, after `update_variable('c', 99)` the previous value of `c`
is `99`; the subsequent `update_variable('a', 2)` makes `c_from_ab(2, None)`
the only qualifying relation, it evaluates to `None` — and the run completes
without error with `c` overwritten to `None`, not kept at `99`. -/
theorem c1_counterexample :
    c1vals1 "c" = some 99 ∧ c1run.err = none ∧ c1run.values "c" = none := by
  refine ⟨?_, ?_, ?_⟩ <;> with_unfolding_all decide

/-- C1 amended: the traversal does not discard inapplicable results. When
the single qualifying relation of a non-constant node evaluates to `None`,
that `None` is taken as the one candidate value and is assigned, overwriting
the variable's previous value (graph_v2.py lines 148-154 append and assign
the computed result with no `None` filter). -/
theorem c1_amended (g : ComputationalGraph) (vals : Values)
    (cs : List VarName) (curr : VarName) (fname : String)
    (hcur : curr ∉ cs)
    (hpv : possibleVariableValues g vals cs curr = [(fname, none)]) :
    (computeNode g vals cs curr).1 curr = none := by
  simp [computeNode, hcur, hpv, setValue]

/-- Witness for `c1_amended`: the state of `gC1` right when `c` is popped
during `update_variable('a', 2)`. -/
theorem c1_amended_witness :
    ("c" ∉ (["a", "b", "a"] : List VarName))
    ∧ possibleVariableValues gC1 (setValue c1vals1 "a" (some 2))
        ["a", "b", "a"] "c" = [("c_from_ab", none)]
    ∧ (computeNode gC1 (setValue c1vals1 "a" (some 2))
        ["a", "b", "a"] "c").1 "c" = none :=
  ⟨by decide, by with_unfolding_all rfl,
    c1_amended gC1 (setValue c1vals1 "a" (some 2)) ["a", "b", "a"] "c"
      "c_from_ab" (by decide) (by with_unfolding_all rfl)⟩

/-- C2 counterexample. At the claim's own inputs `a = 2, b = 4, e = 8,
d = 2` the two relations do NOT both yield 6: `c_from_ab` gives `6` but
`c_from_de` gives `8 / 2 = 4`. Propagation therefore raises a Value
Inconsistency for `c` instead of succeeding, and `c` does not equal 6
afterwards. -/
theorem c2_counterexample :
    c2run.err
      = some (.inconsistency "c" [("c_from_ab", some 6), ("c_from_de", some 4)])
    ∧ c2run.values "c" ≠ some 6 := by
  constructor <;> with_unfolding_all decide

/-- C2 amended: for both relations to yield 6 the inputs must be, e.g.,
`a = 2, b = 4, e = 12, d = 2` (not `e = 8`). Then both candidates are `6`,
the pairwise verification agrees and propagation succeeds without error —
but the engine assigns nothing in the several-candidates branch
(graph_v2.py lines 155-170 only verify), so `c` keeps its previous value
(still unset here) rather than being set to the agreed `6`. -/
theorem c2_amended :
    possibleVariableValues gC2
        (setValue (setValue c2vals3 "e" (some 12)) "d" (some 2))
        ["a", "b", "d", "e", "d"] "c"
      = [("c_from_ab", some 6), ("c_from_de", some 6)]
    ∧ c2runAgree.err = none
    ∧ c2runAgree.values "c" = c2vals3 "c"
    ∧ c2vals3 "c" = none := by
  refine ⟨?_, ?_, ?_, ?_⟩ <;> with_unfolding_all decide

/-- C3: when a popped node is not run-constant, has two or more qualifying
relations, and some consecutive pair of their candidate values disagrees
under the node's verification predicate (its own if supplied, else the
default equality — `verificationOf`), the whole propagation stops at that
node and returns the Value Inconsistency error carrying the variable's name
and every candidate value paired with the name of the relation that
produced it; no further node is processed and no value is assigned by the
failing step. -/
theorem c3_value_inconsistency (g : ComputationalGraph) (fuel : Nat)
    (vals : Values) (cs vis q : List VarName) (curr : VarName)
    (c1 c2 : String × Val) (rest : List (String × Val))
    (hcur : curr ∉ cs)
    (hq : q.getLast? = some curr)
    (hpv : possibleVariableValues g vals cs curr = c1 :: c2 :: rest)
    (hdis : adjacentPairsAgree (g.verificationOf curr)
        ((c1 :: c2 :: rest).map Prod.snd) = false) :
    traverseAux g (fuel + 1) vals cs vis q
      = ⟨vals, some (.inconsistency curr (c1 :: c2 :: rest)), [curr]⟩ := by
  simp only [List.map_cons] at hdis
  have hcn : computeNode g vals cs curr
      = (vals, cs, some (.inconsistency curr (c1 :: c2 :: rest))) := by
    simp [computeNode, hcur, hpv, hdis]
  simp [traverseAux, hq, hcn]

/-- Witness for `c3_value_inconsistency`: the two-way-computed variable `c`
with settled inputs `a = 2, b = 4, d = 2, e = 8` (candidates `6` and `4`
under the default equality predicate). -/
theorem c3_witness :
    traverseAux gC2 5 c3vals c3cs ["c"] ["c"]
      = ⟨c3vals,
          some (.inconsistency "c" [("c_from_ab", some 6), ("c_from_de", some 4)]),
          ["c"]⟩ :=
  c3_value_inconsistency gC2 4 c3vals c3cs ["c"] ["c"] "c"
    ("c_from_ab", some 6) ("c_from_de", some 4) []
    (by decide) rfl (by with_unfolding_all rfl) (by with_unfolding_all decide)

/-- C4 counterexample. Variable `b` of `varsC4` declares the input `x`,
which is registered nowhere — yet construction succeeds: the source never
validates that dependency names resolve (graph_v2.py lines 48-72 only check
duplicates), so a "successfully constructed" graph can carry an unresolved
input name, contradicting both halves of the claim. -/
theorem c4_counterexample :
    (setupComputationalGraph 8 varsC4).isOk = true
    ∧ "x" ∈ ((gC4.variablesTable "b").map Variable.allDependencies).getD []
    ∧ (gC4.variablesTable "x").isNone = true := by
  refine ⟨?_, ?_, ?_⟩ <;> with_unfolding_all decide

/-- C4 amended: construction performs no input-name validation. A relation
may reference an unregistered name; that relation then never qualifies in
the construction-time traversal (an unregistered name is never in the
constant set), so its variable it is left untouched, and construction
completes normally. -/
theorem c4_amended :
    (setupComputationalGraph 8 varsC4).isOk = true
    ∧ c4run.err = none
    ∧ possibleVariableValues gC4 gC4.initialValues gC4.defaultConstants "b" = []
    ∧ c4run.values "b" = none := by
  refine ⟨?_, ?_, ?_, ?_⟩ <;> with_unfolding_all decide

/-- C5 counterexample. After `update_variable('a', 2)`,
`update_variable('b', 3, ['a'])` and the literal `update_variable('d', 2)`,
`c` does equal 5 but `e` is still unset (`None`), not 10: the third run's
constant set is `{a, d}` ∪ `{d}`, it does not contain `c`, so
`e_from_cd(c, d)` never qualifies and `e` is never recomputed. -/
theorem c5_counterexample :
    c5run1.err = none ∧ c5run2.err = none ∧ c5run3.err = none
    ∧ c5run3.values "c" = some 5 ∧ c5run3.values "e" = none := by
  refine ⟨?_, ?_, ?_, ?_, ?_⟩ <;> with_unfolding_all decide

/-- C5 amended: with the first two calls as given, `c = 5`; the third call
must additionally pin `c` — `update_variable('d', 2, ['c'])` — for `e`'s
relation to qualify, and then the sequence indeed leaves `c = 5` and
`e = 10`. -/
theorem c5_amended :
    c5run1.err = none ∧ c5run2.err = none ∧ c5run3c.err = none
    ∧ c5run3c.values "c" = some 5 ∧ c5run3c.values "e" = some 10 := by
  refine ⟨?_, ?_, ?_, ?_, ?_⟩ <;> with_unfolding_all decide

/-- C6 counterexample. In `gC6`, `s` feeds `x` and `y`, and `x` feeds `z`;
so when `x` is processed, `z` is newly discovered while `y` is the earlier
pending node. A LIFO (depth-first) walk would process `z` before `y`, but
the run processes `s, x, y, z`: the earlier-discovered `y` comes first —
`pop()` takes the back of the list while discoveries are inserted at the
front, which is FIFO (breadth-first) order, refuting the claim. -/
theorem c6_counterexample :
    c6run.popped = ["s", "x", "y", "z"]
    ∧ c6run.popped.findIdx (fun w => w == "y")
        < c6run.popped.findIdx (fun w => w == "z") := by
  constructor <;> with_unfolding_all decide

/-- C6 amended: the traversal is first-in-first-out (breadth-first): each
step processes the node at the BACK of the pending list — the earliest
inserted — while newly discovered dependents are inserted at the front, so
pending nodes discovered earlier are always processed before newly
discovered ones; on `gC6` the order is `s, x, y, z` (sibling `y` before
`x`'s dependent `z`). -/
theorem c6_amended :
    (∀ (g : ComputationalGraph) (fuel : Nat) (vals : Values)
        (cs vis q : List VarName), q ≠ [] →
        ((traverseAux g (fuel + 1) vals cs vis q).popped).head? = q.getLast?)
    ∧ c6run.popped = ["s", "x", "y", "z"] := by
  constructor
  · intro g fuel vals cs vis q hq
    rcases List.eq_nil_or_concat q with rfl | ⟨l, a, rfl⟩
    · exact absurd rfl hq
    · simp only [List.concat_eq_append]
      rw [List.getLast?_concat]
      have hstep : (l ++ [a]).getLast? = some a := List.getLast?_concat _
      rcases hcn : computeNode g vals cs a with ⟨vals1, cs1, e⟩
      cases e <;> simp [traverseAux, hstep, hcn]
  · with_unfolding_all decide

/-- Witness for `c6_amended`: its first component at a concrete queue. -/
theorem c6_amended_witness :
    ((traverseAux gC6 8 gC6.initialValues ["s"] ["s"] ["s"]).popped).head?
      = (["s"] : List VarName).getLast? :=
  c6_amended.1 gC6 7 gC6.initialValues ["s"] ["s"] ["s"] (by decide)

/-- C9: `update_variable` on a name with no entry in the variables table
returns the Unknown Variable error and leaves every value exactly as it
was (the source raises before any mutation; the graph's topology and
default constants are derived data that no update ever changes in the
model). -/
theorem c9_unknown_variable (g : ComputationalGraph) (fuel : Nat)
    (vals : Values) (name : VarName) (value : Val) (cs : List VarName)
    (propagate : Bool) (h : g.variablesTable name = none) :
    updateVariable g fuel vals name value cs propagate
      = ⟨vals, some (.unknownVariable name), []⟩ := by
  simp [updateVariable, h]

/-- Witness for `c9_unknown_variable`: updating the unregistered name `"q"`
on the five-variable graph. -/
theorem c9_witness :
    updateVariable gC5 8 c5vals0 "q" (some 1) [] true
      = ⟨c5vals0, some (.unknownVariable "q"), []⟩ :=
  c9_unknown_variable gC5 8 c5vals0 "q" (some 1) [] true (by rfl)

/-- C10: constructing from an empty variable list always fails (the source
indexes `self.variables[0]`, an `IndexError`), and consequently every
successfully constructed graph was built from at least one variable. -/
theorem c10_nonempty_graph :
    (∀ fuel, setupComputationalGraph fuel ([] : List Variable)
        = .error .emptyVariables)
    ∧ (∀ (fuel : Nat) (vars : List Variable),
        (setupComputationalGraph fuel vars).isOk = true → 1 ≤ vars.length) := by
  constructor
  · intro fuel; rfl
  · intro fuel vars h
    match vars with
    | [] =>
      rw [show setupComputationalGraph fuel ([] : List Variable)
          = Except.error GraphErr.emptyVariables from rfl] at h
      exact absurd h (by decide)
    | v :: l => simp

/-- Witness for `c10_nonempty_graph`: a one-variable construction succeeds
and the second component applies to it. -/
theorem c10_witness :
    (setupComputationalGraph 8 varsTiny).isOk = true ∧ 1 ≤ varsTiny.length :=
  ⟨by rfl, c10_nonempty_graph.2 8 varsTiny (by rfl)⟩

/-- C7 counterexample. The diamond graph `gC7` has 4 variables and 4 edges
(`s → x`, `s → y`, `x → t`, `y → t`), yet a single propagation run pops 5
nodes: `t` is enqueued and popped twice because nodes are marked visited
only when popped, so `y`'s processing re-enqueues the still-unvisited `t`.
This contradicts both "each node is placed on the pending list at most
once" and the `|variables|`-pop / `|edges|`-step bounds. -/
theorem c7_counterexample :
    c7run.popped = ["s", "x", "y", "t", "t"]
    ∧ gC7.varList.length = 4
    ∧ c7run.popped.length = 5
    ∧ c7run.err = none := by
  refine ⟨?_, ?_, ?_, ?_⟩ <;> with_unfolding_all decide

/-- Filter length is monotone in the predicate. -/
lemma length_filter_le_of_imp (l : List VarName) (p q : VarName → Bool)
    (h : ∀ a, p a = true → q a = true) :
    (l.filter p).length ≤ (l.filter q).length := by
  induction l with
  | nil => simp
  | cons a l ih =>
    by_cases hp : p a = true
    · rw [List.filter_cons_of_pos hp, List.filter_cons_of_pos (h a hp)]
      simpa using ih
    · rw [List.filter_cons_of_neg (by simpa using hp)]
      by_cases hq : q a = true
      · rw [List.filter_cons_of_pos hq]
        exact Nat.le_succ_of_le ih
      · rw [List.filter_cons_of_neg (by simpa using hq)]
        exact ih

/-- Visiting one more node cannot increase the unvisited count. -/
lemma unvisitedCount_cons_le (univ vis : List VarName) (w : VarName) :
    unvisitedCount univ (w :: vis) ≤ unvisitedCount univ vis := by
  apply length_filter_le_of_imp
  intro a ha
  simp only [decide_eq_true_eq] at ha ⊢
  intro hav
  exact ha (List.mem_cons_of_mem _ hav)

/-- Re-visiting an already visited node keeps the unvisited count. -/
lemma unvisitedCount_cons_mem (univ vis : List VarName) (w : VarName)
    (hw : w ∈ vis) :
    unvisitedCount univ (w :: vis) = unvisitedCount univ vis := by
  unfold unvisitedCount
  congr 1
  apply List.filter_congr
  intro a _
  simp only [List.mem_cons, decide_eq_decide]
  constructor
  · intro h hav
    exact h (Or.inr hav)
  · rintro h (rfl | hav)
    · exact h hw
    · exact h hav

/-- Visiting a genuinely new node of a duplicate-free universe decreases
the unvisited count by exactly one. -/
lemma unvisitedCount_cons_not_mem (univ : List VarName) :
    ∀ (vis : List VarName) (w : VarName), univ.Nodup → w ∈ univ → w ∉ vis →
    unvisitedCount univ vis = unvisitedCount univ (w :: vis) + 1 := by
  induction univ with
  | nil => intro vis w _ hwu _; cases hwu
  | cons u rest ih =>
    intro vis w hnd hwu hwv
    rcases List.nodup_cons.mp hnd with ⟨hur, hrest⟩
    unfold unvisitedCount
    by_cases huw : u = w
    · subst huw
      rw [List.filter_cons_of_pos (by simpa using hwv),
          List.filter_cons_of_neg (by simp)]
      have hsame : rest.filter (fun a => decide (a ∉ vis))
          = rest.filter (fun a => decide (a ∉ u :: vis)) := by
        apply List.filter_congr
        intro a har
        have hau : a ≠ u := fun h => hur (h ▸ har)
        simp only [List.mem_cons, decide_eq_decide]
        constructor
        · rintro h (rfl | hav)
          · exact hau rfl
          · exact h hav
        · intro h hav
          exact h (Or.inr hav)
      rw [hsame]
      simp
    · have hwrest : w ∈ rest := by
        rcases List.mem_cons.mp hwu with h | h
        · exact absurd h.symm huw
        · exact h
      have hhead : decide (u ∉ w :: vis) = decide (u ∉ vis) := by
        simp only [List.mem_cons, decide_eq_decide]
        constructor
        · intro h hav
          exact h (Or.inr hav)
        · rintro h (h' | hav)
          · exact huw h'
          · exact h hav
      have hih := ih vis w hrest hwrest hwv
      unfold unvisitedCount at hih
      by_cases huv : u ∈ vis
      · rw [List.filter_cons_of_neg (by simpa using huv),
            List.filter_cons_of_neg (by rw [hhead]; simpa using huv)]
        exact hih
      · rw [List.filter_cons_of_pos (by simpa using huv),
            List.filter_cons_of_pos (by rw [hhead]; simpa using huv)]
        simp only [List.length_cons]
        omega

/-- Marking `curr` visited never increases any entry's potential, provided
`curr` is in the duplicate-free universe. -/
lemma nodePot_cons_le (univ vis : List VarName) (B : Nat) (hB : 1 ≤ B)
    (curr w : VarName) (hnd : univ.Nodup) (hcu : curr ∈ univ) :
    nodePot univ (curr :: vis) B w ≤ nodePot univ vis B w := by
  unfold nodePot
  by_cases hcv : curr ∈ vis
  · rw [unvisitedCount_cons_mem univ vis curr hcv]
    by_cases hwv : w ∈ vis
    · rw [if_pos (List.mem_cons_of_mem _ hwv), if_pos hwv]
    · by_cases hwc : w = curr
      · subst hwc
        rw [if_pos (List.mem_cons_self _ _), if_pos hcv]
      · have hwcv : w ∉ curr :: vis := by
          intro h
          rcases List.mem_cons.mp h with h' | h'
          · exact hwc h'
          · exact hwv h'
        rw [if_neg hwcv, if_neg hwv]
  · have hcount := unvisitedCount_cons_not_mem univ vis curr hnd hcu hcv
    by_cases hwv : w ∈ vis
    · rw [if_pos (List.mem_cons_of_mem _ hwv), if_pos hwv]
      apply Nat.pow_le_pow_right hB
      omega
    · by_cases hwc : w = curr
      · subst hwc
        rw [if_pos (List.mem_cons_self _ _), if_neg hwv]
        apply Nat.pow_le_pow_right hB
        omega
      · have hwcv : w ∉ curr :: vis := by
          intro h
          rcases List.mem_cons.mp h with h' | h'
          · exact hwc h'
          · exact hwv h'
        rw [if_neg hwcv, if_neg hwv]
        apply Nat.pow_le_pow_right hB
        omega

/-- A mapped sum is bounded by length times a pointwise bound. -/
lemma sum_map_le_length_mul (l : List VarName) (f : VarName → Nat) (c : Nat)
    (h : ∀ x ∈ l, f x ≤ c) : (l.map f).sum ≤ l.length * c := by
  induction l with
  | nil => simp
  | cons a l ih =>
    simp only [List.map_cons, List.sum_cons, List.length_cons]
    have h1 := h a (List.mem_cons_self a l)
    have h2 := ih (fun x hx => h x (List.mem_cons_of_mem a hx))
    calc f a + (l.map f).sum ≤ c + l.length * c := Nat.add_le_add h1 h2
    _ = (l.length + 1) * c := by ring

/-- A mapped sum is monotone in the function. -/
lemma sum_map_le_sum_map (l : List VarName) (f f' : VarName → Nat)
    (h : ∀ x ∈ l, f x ≤ f' x) : (l.map f).sum ≤ (l.map f').sum := by
  induction l with
  | nil => simp
  | cons a l ih =>
    simp only [List.map_cons, List.sum_cons]
    exact Nat.add_le_add (h a (List.mem_cons_self a l))
      (ih (fun x hx => h x (List.mem_cons_of_mem a hx)))

/-- One iteration of the traversal loop strictly decreases the pending-list
potential: popping `curr` off the back and pushing its not-yet-visited
dependents (reversed, at the front) costs less than `curr`'s own potential. -/
lemma queuePot_step_lt (g : ComputationalGraph) (univ vis : List VarName)
    (curr : VarName) (q : List VarName)
    (hnd : univ.Nodup) (hcu : curr ∈ univ) :
    queuePot univ (curr :: vis) (fuelBase g)
        (((g.adjacencyTable curr).filter
            (fun w => decide (w ∉ curr :: vis))).reverse ++ q)
      < queuePot univ vis (fuelBase g) (q ++ [curr]) := by
  have hB : 1 ≤ fuelBase g := by unfold fuelBase; omega
  have hn : g.varList.length < fuelBase g := by unfold fuelBase; omega
  have hrhs : queuePot univ vis (fuelBase g) (q ++ [curr])
      = queuePot univ vis (fuelBase g) q + nodePot univ vis (fuelBase g) curr := by
    unfold queuePot
    rw [List.map_append, List.sum_append]
    simp
  have hlhs : queuePot univ (curr :: vis) (fuelBase g)
        (((g.adjacencyTable curr).filter
            (fun w => decide (w ∉ curr :: vis))).reverse ++ q)
      = queuePot univ (curr :: vis) (fuelBase g)
          ((g.adjacencyTable curr).filter
            (fun w => decide (w ∉ curr :: vis))).reverse
        + queuePot univ (curr :: vis) (fuelBase g) q := by
    unfold queuePot
    rw [List.map_append, List.sum_append]
  have hqle : queuePot univ (curr :: vis) (fuelBase g) q
      ≤ queuePot univ vis (fuelBase g) q := by
    unfold queuePot
    apply sum_map_le_sum_map
    intro w _
    exact nodePot_cons_le univ vis (fuelBase g) hB curr w hnd hcu
  have hpushlen : ((g.adjacencyTable curr).filter
      (fun w => decide (w ∉ curr :: vis))).length ≤ g.varList.length := by
    calc ((g.adjacencyTable curr).filter
          (fun w => decide (w ∉ curr :: vis))).length
        ≤ (g.adjacencyTable curr).length := List.length_filter_le _ _
      _ ≤ g.varList.length := by
          unfold ComputationalGraph.adjacencyTable
          rw [List.length_map]
          exact List.length_filter_le _ _
  have hpushpot : queuePot univ (curr :: vis) (fuelBase g)
        ((g.adjacencyTable curr).filter
          (fun w => decide (w ∉ curr :: vis))).reverse
      ≤ g.varList.length
          * fuelBase g ^ (2 * unvisitedCount univ (curr :: vis)) := by
    unfold queuePot
    calc (((g.adjacencyTable curr).filter
            (fun w => decide (w ∉ curr :: vis))).reverse.map
          (nodePot univ (curr :: vis) (fuelBase g))).sum
        ≤ ((g.adjacencyTable curr).filter
            (fun w => decide (w ∉ curr :: vis))).reverse.length
            * fuelBase g ^ (2 * unvisitedCount univ (curr :: vis)) := by
          apply sum_map_le_length_mul
          intro w hwp
          have hw2 := List.mem_reverse.mp hwp
          have hw3 : w ∉ curr :: vis := by
            have := List.of_mem_filter hw2
            simpa using this
          unfold nodePot
          rw [if_neg hw3]
          simp
      _ ≤ g.varList.length
            * fuelBase g ^ (2 * unvisitedCount univ (curr :: vis)) := by
          rw [List.length_reverse]
          exact Nat.mul_le_mul_right _ hpushlen
  have hmain : g.varList.length
        * fuelBase g ^ (2 * unvisitedCount univ (curr :: vis))
      < nodePot univ vis (fuelBase g) curr := by
    have hpow : 0 < fuelBase g ^ (2 * unvisitedCount univ (curr :: vis)) :=
      pow_pos (by omega) _
    unfold nodePot
    by_cases hcv : curr ∈ vis
    · rw [if_pos hcv, ← unvisitedCount_cons_mem univ vis curr hcv]
      calc g.varList.length
            * fuelBase g ^ (2 * unvisitedCount univ (curr :: vis))
          < fuelBase g * fuelBase g ^ (2 * unvisitedCount univ (curr :: vis)) :=
            mul_lt_mul_of_pos_right hn hpow
        _ = fuelBase g ^ (2 * unvisitedCount univ (curr :: vis) + 1) := by
            rw [pow_succ]
            ring
    · have hcount := unvisitedCount_cons_not_mem univ vis curr hnd hcu hcv
      rw [if_neg hcv]
      have hk : 2 * unvisitedCount univ vis
          = 2 * unvisitedCount univ (curr :: vis) + 2 := by omega
      rw [hk]
      calc g.varList.length
            * fuelBase g ^ (2 * unvisitedCount univ (curr :: vis))
          < fuelBase g * fuelBase g ^ (2 * unvisitedCount univ (curr :: vis)) :=
            mul_lt_mul_of_pos_right hn hpow
        _ ≤ (fuelBase g * fuelBase g)
              * fuelBase g ^ (2 * unvisitedCount univ (curr :: vis)) := by
            have hbb : fuelBase g ≤ fuelBase g * fuelBase g :=
              Nat.le_mul_of_pos_left _ (by omega)
            exact Nat.mul_le_mul_right _ hbb
        _ = fuelBase g ^ (2 * unvisitedCount univ (curr :: vis) + 2) := by
            ring
  omega

/-- The third component of `computeNode` is never the fuel marker. -/
lemma computeNode_err_shape (g : ComputationalGraph) (vals : Values)
    (cs : List VarName) (curr : VarName) :
    (computeNode g vals cs curr).2.2 = none
    ∨ ∃ cands, (computeNode g vals cs curr).2.2
        = some (.inconsistency curr cands) := by
  unfold computeNode
  split
  · left; rfl
  · split
    · left; rfl
    · left; rfl
    · split
      · left; rfl
      · right; exact ⟨_, rfl⟩

/-- With fuel exceeding the pending-list potential, the traversal never
exhausts its fuel (the potential strictly decreases each iteration). -/
lemma traverseAux_fueled (g : ComputationalGraph) (univ : List VarName)
    (hnd : univ.Nodup)
    (hnames : ∀ v ∈ g.varList, v.name ∈ univ) :
    ∀ (fuel : Nat) (vals : Values) (cs vis queue : List VarName),
      (∀ w ∈ queue, w ∈ univ) →
      queuePot univ vis (fuelBase g) queue < fuel →
      (traverseAux g fuel vals cs vis queue).err ≠ some .outOfFuel := by
  intro fuel
  induction fuel with
  | zero =>
    intro vals cs vis queue _ hpot
    exact absurd hpot (Nat.not_lt_zero _)
  | succ fuel ih =>
    intro vals cs vis queue hq hpot
    rcases List.eq_nil_or_concat queue with rfl | ⟨q, curr, rfl⟩
    · simp [traverseAux]
    · simp only [List.concat_eq_append] at hq hpot ⊢
      have hlast : (q ++ [curr]).getLast? = some curr := List.getLast?_concat _
      have hdrop : (q ++ [curr]).dropLast = q := List.dropLast_concat
      have hcu : curr ∈ univ := hq curr (by simp)
      rcases hcn : computeNode g vals cs curr with ⟨vals1, cs1, e⟩
      cases e with
      | some e' =>
        have hne := computeNode_err_shape g vals cs curr
        rw [hcn] at hne
        simp only [traverseAux, hlast, hcn, hdrop]
        rcases hne with h | ⟨cands, h⟩
        · simp at h
        · simp only [Option.some.injEq] at h
          subst h
          simp
      | none =>
        simp only [traverseAux, hlast, hcn, hdrop]
        apply ih
        · intro w hw
          rcases List.mem_append.mp hw with hw1 | hw2
          · have hw1' := List.mem_reverse.mp hw1
            have hw1'' := (List.mem_filter.mp hw1').1
            unfold ComputationalGraph.adjacencyTable at hw1''
            rcases List.mem_map.mp hw1'' with ⟨v, hv, rfl⟩
            exact hnames v (List.mem_filter.mp hv).1
          · exact hq w (List.mem_append_left _ hw2)
        · have hdec := queuePot_step_lt g univ vis curr q hnd hcu
          omega

/-- C7 amended: every propagation run terminates — it is a deterministic
function of its inputs, and no run with fuel above the explicit bound
`traverseFuelBound` (the initial pending-list potential) ever exhausts its
fuel. However, the per-run work is NOT bounded by `|variables|` pops or
`|edges|` steps, and a node is NOT enqueued at most once: nodes are marked
visited only when popped, so a node can be re-enqueued once per pop of an
in-neighbour until its own first pop (see `c7_counterexample`). -/
theorem c7_amended (g : ComputationalGraph) (fuel : Nat) (vals : Values)
    (start : VarName) (cs : List VarName)
    (h : traverseFuelBound g start < fuel) :
    (traverseGraph g fuel vals start cs).err ≠ some .outOfFuel := by
  unfold traverseGraph
  unfold traverseFuelBound at h
  apply traverseAux_fueled g (nameUniverse g start)
  · exact List.nodup_dedup _
  · intro v hv
    unfold nameUniverse
    rw [List.mem_dedup]
    exact List.mem_cons_of_mem _ (List.mem_map_of_mem _ hv)
  · intro w hw
    have hws : w = start := List.mem_singleton.mp hw
    subst hws
    unfold nameUniverse
    rw [List.mem_dedup]
    exact List.mem_cons_self _ _
  · exact h

/-- Witness for `c7_amended`: on the diamond graph the bound evaluates to
`6 ^ 7 = 279936`, and any larger fuel provably cannot run out. -/
theorem c7_amended_witness :
    traverseFuelBound gC7 "s" < 279937
    ∧ (traverseGraph gC7 279937 gC7.initialValues "s" ["s"]).err
        ≠ some .outOfFuel :=
  ⟨by with_unfolding_all decide,
    c7_amended gC7 279937 gC7.initialValues "s" ["s"]
      (by with_unfolding_all decide)⟩

/-- Processing one node never changes the value of a name that is already
run-constant (assignment only happens to a node outside `constants`). -/
lemma computeNode_value_stable (g : ComputationalGraph) (vals : Values)
    (cs : List VarName) (curr n : VarName) (hn : n ∈ cs) :
    (computeNode g vals cs curr).1 n = vals n := by
  unfold computeNode
  split
  · rfl
  · rename_i hcur
    split
    · rfl
    · have hne : ¬ n = curr := fun h => hcur (h ▸ hn)
      simp [setValue, hne]
    · split
      · rfl
      · rfl

/-- Processing one node only ever grows the run-constant set. -/
lemma computeNode_constants_mem (g : ComputationalGraph) (vals : Values)
    (cs : List VarName) (curr n : VarName) (hn : n ∈ cs) :
    n ∈ (computeNode g vals cs curr).2.1 := by
  unfold computeNode
  split
  · exact hn
  · split
    · exact List.mem_cons_of_mem _ hn
    · exact List.mem_cons_of_mem _ hn
    · split
      · exact List.mem_cons_of_mem _ hn
      · exact hn

/-- Once a name is in the run-constant set, the rest of the traversal never
changes its value (graph_v2.py line 136 guards all assignment on
`curr not in constants`, and line 173 only ever adds to `constants`). -/
lemma traverseAux_stable (g : ComputationalGraph) :
    ∀ (fuel : Nat) (vals : Values) (cs vis queue : List VarName) (n : VarName),
      n ∈ cs → (traverseAux g fuel vals cs vis queue).values n = vals n := by
  intro fuel
  induction fuel with
  | zero => intro vals cs vis queue n _; rfl
  | succ fuel ih =>
    intro vals cs vis queue n hn
    rcases List.eq_nil_or_concat queue with rfl | ⟨q, curr, rfl⟩
    · simp [traverseAux]
    · simp only [List.concat_eq_append]
      have hlast : (q ++ [curr]).getLast? = some curr := List.getLast?_concat _
      have hdrop : (q ++ [curr]).dropLast = q := List.dropLast_concat
      rcases hcn : computeNode g vals cs curr with ⟨vals1, cs1, e⟩
      have hv1 : vals1 n = vals n := by
        have h := computeNode_value_stable g vals cs curr n hn
        rw [hcn] at h
        exact h
      have hc1 : n ∈ cs1 := by
        have h := computeNode_constants_mem g vals cs curr n hn
        rw [hcn] at h
        exact h
      cases e with
      | none =>
        simp only [traverseAux, hlast, hcn, hdrop]
        rw [ih vals1 cs1 _ _ n hc1, hv1]
      | some e' =>
        simp only [traverseAux, hlast, hcn, hdrop]
        exact hv1

/-- Mapping two value tables that agree on a list gives equal lists. -/
lemma map_values_congr (vals w : Values) (deps : List VarName)
    (h : ∀ d ∈ deps, vals d = w d) : deps.map vals = deps.map w := by
  induction deps with
  | nil => rfl
  | cons d deps ih =>
    simp only [List.map_cons]
    rw [h d (List.mem_cons_self d deps),
      ih (fun x hx => h x (List.mem_cons_of_mem d hx))]

/-- The qualifying candidate list only reads the values of names inside
`constants` (the qualification filter demands every dependency be there),
so two tables agreeing on `constants` produce identical candidates. -/
lemma possibleVariableValues_congr (g : ComputationalGraph) (vals w : Values)
    (cs : List VarName) (curr : VarName) (h : ∀ d ∈ cs, vals d = w d) :
    possibleVariableValues g vals cs curr
      = possibleVariableValues g w cs curr := by
  unfold possibleVariableValues
  have key : ∀ (L : List VariableFn),
      (∀ f ∈ L, f.deps.all (fun d => decide (d ∈ cs)) = true) →
      L.map (fun f => (f.fname, f.fn (f.deps.map vals)))
        = L.map (fun f => (f.fname, f.fn (f.deps.map w))) := by
    intro L
    induction L with
    | nil => intro _; rfl
    | cons f L ihL =>
      intro hL
      simp only [List.map_cons]
      have hall : ∀ d ∈ f.deps, d ∈ cs := by
        intro d hd
        have hf := hL f (List.mem_cons_self f L)
        exact of_decide_eq_true (List.all_eq_true.mp hf d hd)
      have hmap : f.deps.map vals = f.deps.map w :=
        map_values_congr vals w f.deps (fun d hd => h d (hall d hd))
      rw [hmap, ihL (fun f' hf' => hL f' (List.mem_cons_of_mem f hf'))]
  apply key
  intro f hf
  exact (List.mem_filter.mp hf).2

/-- Re-running a completed traversal from its own resulting values, with the
same start state, reproduces exactly the same result: every value a node is
recomputed from was settled (in `constants`) when first used and never
changes afterwards, so the second run assigns every node the value it
already has. -/
lemma traverseAux_idem (g : ComputationalGraph) :
    ∀ (fuel : Nat) (vals : Values) (cs vis queue : List VarName),
      (traverseAux g fuel vals cs vis queue).err = none →
      traverseAux g fuel (traverseAux g fuel vals cs vis queue).values
          cs vis queue
        = ⟨(traverseAux g fuel vals cs vis queue).values, none,
           (traverseAux g fuel vals cs vis queue).popped⟩ := by
  intro fuel
  induction fuel with
  | zero =>
    intro vals cs vis queue herr
    simp [traverseAux] at herr
  | succ fuel ih =>
    intro vals cs vis queue herr
    rcases List.eq_nil_or_concat queue with rfl | ⟨q, curr, rfl⟩
    · simp [traverseAux]
    · simp only [List.concat_eq_append] at herr ⊢
      have hlast : (q ++ [curr]).getLast? = some curr := List.getLast?_concat _
      have hdrop : (q ++ [curr]).dropLast = q := List.dropLast_concat
      by_cases hmem : curr ∈ cs
      · have hcn : computeNode g vals cs curr = (vals, cs, none) := by
          simp [computeNode, hmem]
        have hrun : traverseAux g (fuel + 1) vals cs vis (q ++ [curr])
            = ⟨(traverseAux g fuel vals cs (curr :: vis)
                  (((g.adjacencyTable curr).filter
                    (fun w => decide (w ∉ curr :: vis))).reverse ++ q)).values,
               (traverseAux g fuel vals cs (curr :: vis)
                  (((g.adjacencyTable curr).filter
                    (fun w => decide (w ∉ curr :: vis))).reverse ++ q)).err,
               curr :: (traverseAux g fuel vals cs (curr :: vis)
                  (((g.adjacencyTable curr).filter
                    (fun w => decide (w ∉ curr :: vis))).reverse ++ q)).popped⟩ := by
          simp only [traverseAux, hlast, hcn, hdrop]
        rw [hrun] at herr ⊢
        have herr' : (traverseAux g fuel vals cs (curr :: vis)
            (((g.adjacencyTable curr).filter
              (fun w => decide (w ∉ curr :: vis))).reverse ++ q)).err = none :=
          herr
        have hcn2 : computeNode g
            (traverseAux g fuel vals cs (curr :: vis)
              (((g.adjacencyTable curr).filter
                (fun w => decide (w ∉ curr :: vis))).reverse ++ q)).values
            cs curr
            = ((traverseAux g fuel vals cs (curr :: vis)
                  (((g.adjacencyTable curr).filter
                    (fun w => decide (w ∉ curr :: vis))).reverse ++ q)).values,
               cs, none) := by
          simp [computeNode, hmem]
        simp only [traverseAux, hlast, hcn2, hdrop]
        rw [ih vals cs (curr :: vis)
          (((g.adjacencyTable curr).filter
            (fun w => decide (w ∉ curr :: vis))).reverse ++ q) herr']
      · rcases hpv : possibleVariableValues g vals cs curr with _ | ⟨cand, cands⟩
        · -- zero candidates
          have hcn : computeNode g vals cs curr = (vals, curr :: cs, none) := by
            simp [computeNode, hmem, hpv]
          have hrun : traverseAux g (fuel + 1) vals cs vis (q ++ [curr])
              = ⟨(traverseAux g fuel vals (curr :: cs) (curr :: vis)
                    (((g.adjacencyTable curr).filter
                      (fun w => decide (w ∉ curr :: vis))).reverse ++ q)).values,
                 (traverseAux g fuel vals (curr :: cs) (curr :: vis)
                    (((g.adjacencyTable curr).filter
                      (fun w => decide (w ∉ curr :: vis))).reverse ++ q)).err,
                 curr :: (traverseAux g fuel vals (curr :: cs) (curr :: vis)
                    (((g.adjacencyTable curr).filter
                      (fun w => decide (w ∉ curr :: vis))).reverse ++ q)).popped⟩ := by
            simp only [traverseAux, hlast, hcn, hdrop]
          rw [hrun] at herr ⊢
          have herr' : (traverseAux g fuel vals (curr :: cs) (curr :: vis)
              (((g.adjacencyTable curr).filter
                (fun w => decide (w ∉ curr :: vis))).reverse ++ q)).err = none :=
            herr
          have hfilterNil : (g.functionsOf curr).filter
              (fun f => f.deps.all (fun d => decide (d ∈ cs))) = [] := by
            have h := hpv
            unfold possibleVariableValues at h
            exact List.map_eq_nil_iff.mp h
          have hpv2 : possibleVariableValues g
              (traverseAux g fuel vals (curr :: cs) (curr :: vis)
                (((g.adjacencyTable curr).filter
                  (fun w => decide (w ∉ curr :: vis))).reverse ++ q)).values
              cs curr = [] := by
            unfold possibleVariableValues
            rw [hfilterNil]
            rfl
          have hcn2 : computeNode g
              (traverseAux g fuel vals (curr :: cs) (curr :: vis)
                (((g.adjacencyTable curr).filter
                  (fun w => decide (w ∉ curr :: vis))).reverse ++ q)).values
              cs curr
              = ((traverseAux g fuel vals (curr :: cs) (curr :: vis)
                    (((g.adjacencyTable curr).filter
                      (fun w => decide (w ∉ curr :: vis))).reverse ++ q)).values,
                 curr :: cs, none) := by
            unfold computeNode
            rw [if_neg hmem, hpv2]
          simp only [traverseAux, hlast, hcn2, hdrop]
          rw [ih vals (curr :: cs) (curr :: vis)
            (((g.adjacencyTable curr).filter
              (fun w => decide (w ∉ curr :: vis))).reverse ++ q) herr']
        · rcases cands with _ | ⟨cand2, rest⟩
          · -- exactly one candidate: it is assigned
            have hcn : computeNode g vals cs curr
                = (setValue vals curr cand.2, curr :: cs, none) := by
              simp [computeNode, hmem, hpv]
            have hrun : traverseAux g (fuel + 1) vals cs vis (q ++ [curr])
                = ⟨(traverseAux g fuel (setValue vals curr cand.2) (curr :: cs)
                      (curr :: vis)
                      (((g.adjacencyTable curr).filter
                        (fun w => decide (w ∉ curr :: vis))).reverse ++ q)).values,
                   (traverseAux g fuel (setValue vals curr cand.2) (curr :: cs)
                      (curr :: vis)
                      (((g.adjacencyTable curr).filter
                        (fun w => decide (w ∉ curr :: vis))).reverse ++ q)).err,
                   curr :: (traverseAux g fuel (setValue vals curr cand.2)
                      (curr :: cs) (curr :: vis)
                      (((g.adjacencyTable curr).filter
                        (fun w => decide (w ∉ curr :: vis))).reverse ++ q)).popped⟩ := by
              simp only [traverseAux, hlast, hcn, hdrop]
            rw [hrun] at herr ⊢
            have herr' : (traverseAux g fuel (setValue vals curr cand.2)
                (curr :: cs) (curr :: vis)
                (((g.adjacencyTable curr).filter
                  (fun w => decide (w ∉ curr :: vis))).reverse ++ q)).err = none :=
              herr
            have hstab : ∀ n ∈ curr :: cs,
                (traverseAux g fuel (setValue vals curr cand.2) (curr :: cs)
                  (curr :: vis)
                  (((g.adjacencyTable curr).filter
                    (fun w => decide (w ∉ curr :: vis))).reverse ++ q)).values n
                  = setValue vals curr cand.2 n :=
              fun n hn => traverseAux_stable g fuel (setValue vals curr cand.2)
                (curr :: cs) (curr :: vis) _ n hn
            have hagree : ∀ d ∈ cs, vals d
                = (traverseAux g fuel (setValue vals curr cand.2) (curr :: cs)
                    (curr :: vis)
                    (((g.adjacencyTable curr).filter
                      (fun w => decide (w ∉ curr :: vis))).reverse ++ q)).values d := by
              intro d hd
              have hne : ¬ d = curr := fun h => hmem (h ▸ hd)
              rw [hstab d (List.mem_cons_of_mem _ hd)]
              simp [setValue, hne]
            have hpv2 : possibleVariableValues g
                (traverseAux g fuel (setValue vals curr cand.2) (curr :: cs)
                  (curr :: vis)
                  (((g.adjacencyTable curr).filter
                    (fun w => decide (w ∉ curr :: vis))).reverse ++ q)).values
                cs curr = [cand] := by
              rw [← possibleVariableValues_congr g vals _ cs curr hagree]
              exact hpv
            have hset : setValue
                (traverseAux g fuel (setValue vals curr cand.2) (curr :: cs)
                  (curr :: vis)
                  (((g.adjacencyTable curr).filter
                    (fun w => decide (w ∉ curr :: vis))).reverse ++ q)).values
                curr cand.2
                = (traverseAux g fuel (setValue vals curr cand.2) (curr :: cs)
                    (curr :: vis)
                    (((g.adjacencyTable curr).filter
                      (fun w => decide (w ∉ curr :: vis))).reverse ++ q)).values := by
              funext m
              by_cases hm : m = curr
              · subst hm
                have h1 := hstab m (List.mem_cons_self _ _)
                simp only [setValue, if_pos rfl] at h1 ⊢
                exact h1.symm
              · simp [setValue, hm]
            have hcn2 : computeNode g
                (traverseAux g fuel (setValue vals curr cand.2) (curr :: cs)
                  (curr :: vis)
                  (((g.adjacencyTable curr).filter
                    (fun w => decide (w ∉ curr :: vis))).reverse ++ q)).values
                cs curr
                = ((traverseAux g fuel (setValue vals curr cand.2) (curr :: cs)
                      (curr :: vis)
                      (((g.adjacencyTable curr).filter
                        (fun w => decide (w ∉ curr :: vis))).reverse ++ q)).values,
                   curr :: cs, none) := by
              unfold computeNode
              rw [if_neg hmem, hpv2]
              exact congrArg (fun v => (v, curr :: cs, none)) hset
            simp only [traverseAux, hlast, hcn2, hdrop]
            rw [ih (setValue vals curr cand.2) (curr :: cs) (curr :: vis)
              (((g.adjacencyTable curr).filter
                (fun w => decide (w ∉ curr :: vis))).reverse ++ q) herr']
          · -- two or more candidates
            cases hagr : adjacentPairsAgree (g.verificationOf curr)
                ((cand :: cand2 :: rest).map Prod.snd) with
            | false =>
              simp only [List.map_cons] at hagr
              have hcn : computeNode g vals cs curr
                  = (vals, cs,
                     some (.inconsistency curr (cand :: cand2 :: rest))) := by
                simp [computeNode, hmem, hpv, hagr]
              have hrun : traverseAux g (fuel + 1) vals cs vis (q ++ [curr])
                  = ⟨vals, some (.inconsistency curr (cand :: cand2 :: rest)),
                     [curr]⟩ := by
                simp only [traverseAux, hlast, hcn, hdrop]
              rw [hrun] at herr
              simp at herr
            | true =>
              simp only [List.map_cons] at hagr
              have hcn : computeNode g vals cs curr
                  = (vals, curr :: cs, none) := by
                simp [computeNode, hmem, hpv, hagr]
              have hrun : traverseAux g (fuel + 1) vals cs vis (q ++ [curr])
                  = ⟨(traverseAux g fuel vals (curr :: cs) (curr :: vis)
                        (((g.adjacencyTable curr).filter
                          (fun w => decide (w ∉ curr :: vis))).reverse ++ q)).values,
                     (traverseAux g fuel vals (curr :: cs) (curr :: vis)
                        (((g.adjacencyTable curr).filter
                          (fun w => decide (w ∉ curr :: vis))).reverse ++ q)).err,
                     curr :: (traverseAux g fuel vals (curr :: cs) (curr :: vis)
                        (((g.adjacencyTable curr).filter
                          (fun w => decide (w ∉ curr :: vis))).reverse ++ q)).popped⟩ := by
                simp only [traverseAux, hlast, hcn, hdrop]
              rw [hrun] at herr ⊢
              have herr' : (traverseAux g fuel vals (curr :: cs) (curr :: vis)
                  (((g.adjacencyTable curr).filter
                    (fun w => decide (w ∉ curr :: vis))).reverse ++ q)).err
                    = none := herr
              have hstab : ∀ n ∈ curr :: cs,
                  (traverseAux g fuel vals (curr :: cs) (curr :: vis)
                    (((g.adjacencyTable curr).filter
                      (fun w => decide (w ∉ curr :: vis))).reverse ++ q)).values n
                    = vals n :=
                fun n hn => traverseAux_stable g fuel vals (curr :: cs)
                  (curr :: vis) _ n hn
              have hagree : ∀ d ∈ cs, vals d
                  = (traverseAux g fuel vals (curr :: cs) (curr :: vis)
                      (((g.adjacencyTable curr).filter
                        (fun w => decide (w ∉ curr :: vis))).reverse ++ q)).values d :=
                fun d hd => (hstab d (List.mem_cons_of_mem _ hd)).symm
              have hpv2 : possibleVariableValues g
                  (traverseAux g fuel vals (curr :: cs) (curr :: vis)
                    (((g.adjacencyTable curr).filter
                      (fun w => decide (w ∉ curr :: vis))).reverse ++ q)).values
                  cs curr = cand :: cand2 :: rest := by
                rw [← possibleVariableValues_congr g vals _ cs curr hagree]
                exact hpv
              have hcn2 : computeNode g
                  (traverseAux g fuel vals (curr :: cs) (curr :: vis)
                    (((g.adjacencyTable curr).filter
                      (fun w => decide (w ∉ curr :: vis))).reverse ++ q)).values
                  cs curr
                  = ((traverseAux g fuel vals (curr :: cs) (curr :: vis)
                        (((g.adjacencyTable curr).filter
                          (fun w => decide (w ∉ curr :: vis))).reverse ++ q)).values,
                     curr :: cs, none) := by
                unfold computeNode
                rw [if_neg hmem, hpv2]
                exact if_pos hagr
              simp only [traverseAux, hlast, hcn2, hdrop]
              rw [ih vals (curr :: cs) (curr :: vis)
                (((g.adjacencyTable curr).filter
                  (fun w => decide (w ∉ curr :: vis))).reverse ++ q) herr']

/-- C8: propagation is idempotent. If a `traverse_graph` run from `start`
with a given initial constant set completes without error, re-running it
from the resulting values with the same start and the identical initial
constant set again completes without error, follows the same processing
order, and leaves every variable's value exactly as the first run did. -/
theorem c8_idempotent (g : ComputationalGraph) (fuel : Nat) (vals : Values)
    (start : VarName) (cs : List VarName)
    (h : (traverseGraph g fuel vals start cs).err = none) :
    traverseGraph g fuel (traverseGraph g fuel vals start cs).values start cs
      = ⟨(traverseGraph g fuel vals start cs).values, none,
         (traverseGraph g fuel vals start cs).popped⟩ :=
  traverseAux_idem g fuel vals cs
    (start.data.map (fun c => String.mk [c])) [start] h

/-- Witness for `c8_idempotent`: re-running the construction-time seeding
traversal of the five-variable graph. -/
theorem c8_witness :
    traverseGraph gC5 32
        (traverseGraph gC5 32 gC5.initialValues "a" gC5.defaultConstants).values
        "a" gC5.defaultConstants
      = ⟨(traverseGraph gC5 32 gC5.initialValues "a" gC5.defaultConstants).values,
         none,
         (traverseGraph gC5 32 gC5.initialValues "a" gC5.defaultConstants).popped⟩ :=
  c8_idempotent gC5 32 gC5.initialValues "a" gC5.defaultConstants
    (by with_unfolding_all decide)

end CompGraph
